import Mathlib

/-!
Verification of the derived-view computation layer of the DailyCRM
single-file application (`src/personal_crm_tasks_calendar_v_1.jsx`).

The data model and the pure computations of the source are embedded
shallowly:

* ISO date strings (`"YYYY-MM-DD"`) stay `String`; JavaScript
  `localeCompare` and the raw `<=` string comparison both agree with
  code-point lexicographic order on such strings, so both are modelled by
  the executable code-point order `strLe`.
* Optional fields become `Option`; JavaScript truthiness of an optional
  string (`!!x`, `x || d`) is modelled by `jsTruthy` / `jsOr`, under which
  both an absent string and the empty string are falsy, exactly as in JS.
* `Array.prototype.sort` with a comparator derived from a string key is a
  stable sort; it is modelled by the stable insertion sort `jsSortBy`.
* Instants are modelled timezone-naively (spec §9 mandates timezone-naive
  calendar dates): a calendar date is a day index (days since the epoch),
  an instant is `day * 86400 + secondsIntoDay`.
-/

namespace DailyCRM

/-- The five fixed task categories (`CATEGORIES` in the source). -/
inductive Category where
  | Dealership | Family | Business | Spiritual | Personal
deriving DecidableEq, Repr

/-- The three task statuses (`STATUSES` in the source). -/
inductive Status where
  | Active | Pending | Completed
deriving DecidableEq, Repr

/-- `CATEGORIES`, in declaration order. -/
def CATEGORIES : List Category :=
  [.Dealership, .Family, .Business, .Spiritual, .Personal]

/-- A next-step sub-item (`NextStep` in the source). `dueDate`, when
present, is an ISO `YYYY-MM-DD` string. -/
structure NextStep where
  id : String
  text : String
  dueDate : Option String
  done : Option Bool
deriving DecidableEq, Repr

/-- A task (`Task` in the source). -/
structure Task where
  id : String
  title : String
  description : Option String
  category : Category
  status : Status
  dueDate : Option String
  createdAt : String
  nextSteps : List NextStep
deriving DecidableEq, Repr

/-- JavaScript truthiness of an optional string: `undefined` and `""` are
falsy, every other string is truthy. -/
def jsTruthy (o : Option String) : Bool :=
  o.getD "" != ""

/-- JavaScript `o || d` on an optional string: the string itself when
truthy, otherwise the default `d`. -/
def jsOr (o : Option String) (d : String) : String :=
  if jsTruthy o then o.getD "" else d

/-- Code-point lexicographic order on character lists, by `Char.toNat`. -/
def listCharLe : List Char → List Char → Bool
  | [], _ => true
  | _ :: _, [] => false
  | a :: s, b :: t =>
      if a.toNat < b.toNat then true
      else if b.toNat < a.toNat then false
      else listCharLe s t

/-- Code-point lexicographic `≤` on strings: the order JavaScript uses
for `<=` on strings, and the order `localeCompare` computes on ISO date
strings and on the `"9999"` sentinel. -/
def strLe (a b : String) : Bool :=
  listCharLe a.data b.data

theorem listCharLe_refl (l : List Char) : listCharLe l l = true := by
  induction l with
  | nil => rfl
  | cons a s ih => simp [listCharLe, ih]

theorem listCharLe_total (a b : List Char) :
    listCharLe a b = false → listCharLe b a = true := by
  induction a generalizing b with
  | nil => intro h; simp [listCharLe] at h
  | cons x s ih =>
      intro h
      cases b with
      | nil => rfl
      | cons y t =>
          simp only [listCharLe] at h ⊢
          rcases Nat.lt_trichotomy x.toNat y.toNat with h1 | h1 | h1
          · simp [h1] at h
          · have h2 : ¬ x.toNat < y.toNat := by omega
            have h3 : ¬ y.toNat < x.toNat := by omega
            simp only [h2, h3, ite_false, if_neg] at h ⊢
            exact ih t h
          · simp [h1, Nat.lt_asymm h1]

theorem listCharLe_trans (a b c : List Char) :
    listCharLe a b = true → listCharLe b c = true → listCharLe a c = true := by
  induction a generalizing b c with
  | nil => intro _ _; rfl
  | cons x s ih =>
      intro hab hbc
      cases b with
      | nil => simp [listCharLe] at hab
      | cons y t =>
          cases c with
          | nil => simp [listCharLe] at hbc
          | cons z u =>
              simp only [listCharLe] at hab hbc ⊢
              rcases Nat.lt_trichotomy x.toNat y.toNat with h1 | h1 | h1
              · rcases Nat.lt_trichotomy y.toNat z.toNat with h2 | h2 | h2
                · simp [Nat.lt_trans h1 h2]
                · rw [← h2]; simp [h1]
                · simp [h2, Nat.lt_asymm h2] at hbc
              · rcases Nat.lt_trichotomy y.toNat z.toNat with h2 | h2 | h2
                · rw [h1]; simp [h2]
                · have h3 : ¬ x.toNat < z.toNat := by omega
                  have h4 : ¬ z.toNat < x.toNat := by omega
                  have h5 : ¬ x.toNat < y.toNat := by omega
                  have h6 : ¬ y.toNat < x.toNat := by omega
                  have h7 : ¬ y.toNat < z.toNat := by omega
                  have h8 : ¬ z.toNat < y.toNat := by omega
                  simp only [h5, h6, ite_false, if_neg] at hab
                  simp only [h7, h8, ite_false, if_neg] at hbc
                  simp only [h3, h4, ite_false, if_neg]
                  exact ih t u hab hbc
                · simp [h2, Nat.lt_asymm h2] at hbc
              · simp [h1, Nat.lt_asymm h1] at hab

theorem strLe_refl (a : String) : strLe a a = true :=
  listCharLe_refl a.data

theorem strLe_total (a b : String) : strLe a b = false → strLe b a = true :=
  listCharLe_total a.data b.data

theorem strLe_trans (a b c : String) :
    strLe a b = true → strLe b c = true → strLe a c = true :=
  listCharLe_trans a.data b.data c.data

/-- `isDueWithinDays(dateISO, days)` from the source, in the
timezone-naive instant model. The due date is the day index denoted by
the ISO string (`new Date(dateISO)` is its midnight instant,
`due * 86400`); "now" is the instant `todayDay * 86400 + secondsIntoDay`;
`new Date(today.toDateString())` is today's midnight `todayDay * 86400`;
`future.setDate(today.getDate() + days)` is now plus `days` whole days.
The source returns `d >= todayMidnight && d <= future`. -/
def isDueWithinDays (dueDay : Option Nat) (days : Nat)
    (todayDay : Nat) (secondsIntoDay : Nat) : Bool :=
  match dueDay with
  | none => false
  | some due =>
      decide (todayDay * 86400 ≤ due * 86400 ∧
        due * 86400 ≤ todayDay * 86400 + secondsIntoDay + days * 86400)

/-- C1: for every optional due date and every `days ≥ 0`,
`isDueWithinDays` is true iff the due date is defined and its calendar
day lies in the inclusive interval `[today, today + days]` (date-only
granularity); it is false whenever the due date is undefined. The only
hypothesis is that the current time-of-day is a valid one (strictly less
than one day's worth of seconds). -/
theorem isDueWithinDays_spec (days todayDay secondsIntoDay : Nat)
    (hday : secondsIntoDay < 86400) :
    isDueWithinDays none days todayDay secondsIntoDay = false ∧
    ∀ due : Nat,
      (isDueWithinDays (some due) days todayDay secondsIntoDay = true ↔
        todayDay ≤ due ∧ due ≤ todayDay + days) := by
  refine ⟨rfl, fun due => ?_⟩
  simp only [isDueWithinDays, decide_eq_true_eq]
  omega

/-- Witness for C1 at concrete inputs: with a 3-day window, today = day
100 at 59 seconds past midnight, day 102 is within the window. -/
theorem isDueWithinDays_spec_witness :
    (59 < 86400) ∧
    (isDueWithinDays (some 102) 3 100 59 = true ↔ 100 ≤ 102 ∧ 102 ≤ 100 + 3) :=
  ⟨by decide, (isDueWithinDays_spec 3 100 59 (by decide)).2 102⟩

/-- Stable insertion step: place `a` before the first element whose key
is not smaller. Models where a JS stable sort puts `a` relative to
already-placed elements when the comparator compares `key`s. -/
def insertByKey (key : α → String) (a : α) : List α → List α
  | [] => [a]
  | b :: t =>
      if strLe (key a) (key b) then a :: b :: t else b :: insertByKey key a t

/-- `Array.prototype.sort(cmp)` with `cmp(a, b) = key(a).localeCompare(key(b))`:
JS sort is stable, and the stable sort by a totally preordered key is
unique, so it is modelled by stable insertion sort. -/
def jsSortBy (key : α → String) : List α → List α
  | [] => []
  | a :: t => insertByKey key a (jsSortBy key t)

/-- First minimum: the element with the least key, ties resolved in
favour of the earlier list position. -/
def firstMinBy (key : α → String) : List α → Option α
  | [] => none
  | a :: t =>
      match firstMinBy key t with
      | none => some a
      | some m => some (if strLe (key a) (key m) then a else m)

theorem insertByKey_perm (key : α → String) (a : α) (l : List α) :
    List.Perm (insertByKey key a l) (a :: l) := by
  induction l with
  | nil => simp [insertByKey]
  | cons b t ih =>
      cases h : strLe (key a) (key b)
      · simp only [insertByKey, h, Bool.false_eq_true, if_neg, ite_false]
        exact (ih.cons b).trans (List.Perm.swap a b t)
      · simp [insertByKey, h]

theorem jsSortBy_perm (key : α → String) (l : List α) :
    List.Perm (jsSortBy key l) l := by
  induction l with
  | nil => simp [jsSortBy]
  | cons a t ih =>
      exact (insertByKey_perm key a (jsSortBy key t)).trans (ih.cons a)

theorem mem_insertByKey (key : α → String) (a x : α) (l : List α) :
    x ∈ insertByKey key a l ↔ x = a ∨ x ∈ l :=
  by simpa using (insertByKey_perm key a l).mem_iff

theorem insertByKey_pairwise (key : α → String) (a : α) (l : List α)
    (h : List.Pairwise (fun x y => strLe (key x) (key y) = true) l) :
    List.Pairwise (fun x y => strLe (key x) (key y) = true)
      (insertByKey key a l) := by
  induction l with
  | nil => simp [insertByKey]
  | cons b t ih =>
      rcases h with _ | ⟨hb, ht⟩
      cases hab : strLe (key a) (key b)
      · simp only [insertByKey, hab, Bool.false_eq_true, if_neg, ite_false]
        refine List.Pairwise.cons ?_ (ih ht)
        intro x hx
        rcases (mem_insertByKey key a x t).1 hx with rfl | hx
        · exact strLe_total _ _ hab
        · exact hb x hx
      · simp only [insertByKey, hab, if_pos, ite_true]
        refine List.Pairwise.cons ?_ (List.Pairwise.cons hb ht)
        intro x hx
        rcases List.mem_cons.1 hx with rfl | hx
        · exact hab
        · exact strLe_trans _ _ _ hab (hb x hx)

theorem jsSortBy_pairwise (key : α → String) (l : List α) :
    List.Pairwise (fun x y => strLe (key x) (key y) = true) (jsSortBy key l) := by
  induction l with
  | nil => simp [jsSortBy]
  | cons a t ih => exact insertByKey_pairwise key a _ ih

theorem insertByKey_filter_key (key : α → String) (a : α) (l : List α)
    (k : String) :
    (insertByKey key a l).filter (fun x => key x == k) =
      (a :: l).filter (fun x => key x == k) := by
  induction l with
  | nil => rfl
  | cons b t ih =>
      cases hab : strLe (key a) (key b)
      · simp only [insertByKey, hab, Bool.false_eq_true, if_neg, ite_false]
        by_cases hak : key a = k
        · have hbk : key b ≠ k := by
            intro hbk
            have heq : key a = key b := by rw [hak, hbk]
            rw [heq, strLe_refl] at hab
            simp at hab
          simp [List.filter_cons, hak, hbk, ih]
        · simp [List.filter_cons, hak, ih]
      · simp only [insertByKey, hab, if_pos, ite_true]

theorem jsSortBy_filter_key (key : α → String) (l : List α) (k : String) :
    (jsSortBy key l).filter (fun x => key x == k) =
      l.filter (fun x => key x == k) := by
  induction l with
  | nil => rfl
  | cons a t ih =>
      calc (insertByKey key a (jsSortBy key t)).filter (fun x => key x == k)
          = (a :: jsSortBy key t).filter (fun x => key x == k) :=
            insertByKey_filter_key key a _ k
        _ = (a :: t).filter (fun x => key x == k) := by
            by_cases hak : key a = k <;> simp [List.filter_cons, hak, ih]

theorem insertByKey_ne_nil (key : α → String) (a : α) (l : List α) :
    insertByKey key a l ≠ [] := by
  cases l with
  | nil => simp [insertByKey]
  | cons b t =>
      cases h : strLe (key a) (key b) <;> simp [insertByKey, h]

theorem jsSortBy_eq_nil_iff (key : α → String) (l : List α) :
    jsSortBy key l = [] ↔ l = [] := by
  cases l with
  | nil => simp [jsSortBy]
  | cons a t =>
      simp only [jsSortBy, iff_false, List.cons_ne_nil]
      exact insertByKey_ne_nil key a _

theorem insertByKey_head (key : α → String) (a : α) (l : List α) :
    (insertByKey key a l).head? =
      match l with
      | [] => some a
      | b :: _ => some (if strLe (key a) (key b) then a else b) := by
  cases l with
  | nil => rfl
  | cons b t => cases h : strLe (key a) (key b) <;> simp [insertByKey, h]

theorem jsSortBy_head (key : α → String) (l : List α) :
    (jsSortBy key l).head? = firstMinBy key l := by
  induction l with
  | nil => rfl
  | cons a t ih =>
      show (insertByKey key a (jsSortBy key t)).head? = _
      rcases hs : jsSortBy key t with _ | ⟨b, s⟩
      · have ht : t = [] := (jsSortBy_eq_nil_iff key t).1 hs
        subst ht
        simp [insertByKey_head, firstMinBy]
      · have hb : firstMinBy key t = some b := by
          rw [← ih, hs]; rfl
        rw [insertByKey_head]
        simp [firstMinBy, hb]

/-- The sort key used on next-steps: `(n.dueDate || "")`. -/
def nsKey (n : NextStep) : String := jsOr n.dueDate ""

/-- `nearestNextStep(task)` from the source (used by the table view):
return `undefined` on an empty next-step list; if no next-step has a
truthy `dueDate`, return `task.nextSteps[0]`; otherwise sort the dated
next-steps by `dueDate` (stable, `localeCompare`) and return the first. -/
def nearestNextStep (task : Task) : Option NextStep :=
  if task.nextSteps.isEmpty then none
  else
    let withDates := task.nextSteps.filter (fun n => jsTruthy n.dueDate)
    if withDates.isEmpty then task.nextSteps.head?
    else (jsSortBy nsKey withDates).head?

/-- The reduction step of the `reduce`-based nearest-next-step
computation inside `TaskCard` (used by the grid view). -/
def reduceNearest (acc : Option NextStep) (cur : NextStep) : Option NextStep :=
  match acc with
  | none => some cur
  | some a =>
      if !jsTruthy a.dueDate then
        (if jsTruthy cur.dueDate then some cur else some a)
      else if !jsTruthy cur.dueDate then some a
      else if strLe (a.dueDate.getD "") (cur.dueDate.getD "") then some a
      else some cur

/-- The `TaskCard` nearest-next-step: `reduce(reduceNearest, null)` over
the next-steps when the list is non-empty, `null` otherwise. -/
def taskCardNearest (task : Task) : Option NextStep :=
  if task.nextSteps.isEmpty then none
  else task.nextSteps.foldl reduceNearest none

theorem nsKey_eq_getD (n : NextStep) : nsKey n = n.dueDate.getD "" := by
  unfold nsKey jsOr jsTruthy
  rcases n.dueDate with _ | s
  · rfl
  · by_cases h : s = "" <;> simp [h]

/-- Left-fold minimum with leftmost tie-breaking, the shape of both
reductions once every element is dated. -/
def foldMin (key : α → String) (a : α) (l : List α) : α :=
  l.foldl (fun x y => if strLe (key x) (key y) then x else y) a

theorem foldMin_eq_firstMinBy (key : α → String) (a : α) (l : List α) :
    some (foldMin key a l) = firstMinBy key (a :: l) := by
  induction l generalizing a with
  | nil => simp [foldMin, firstMinBy]
  | cons b t ih =>
      have hstep : foldMin key a (b :: t) =
          foldMin key (if strLe (key a) (key b) then a else b) t := rfl
      rw [hstep, ih]
      show firstMinBy key ((if strLe (key a) (key b) then a else b) :: t) =
        firstMinBy key (a :: b :: t)
      rcases ht : firstMinBy key t with _ | m
      · cases hab : strLe (key a) (key b) <;> simp [firstMinBy, ht, hab]
      · cases hab : strLe (key a) (key b)
        · rw [if_neg (by simp [hab])]
          cases hbm : strLe (key b) (key m)
          · have ham : strLe (key a) (key m) = false := by
              cases hco : strLe (key a) (key m)
              · rfl
              · have hmb : strLe (key m) (key b) = true := strLe_total _ _ hbm
                have hb2 : strLe (key a) (key b) = true :=
                  strLe_trans _ _ _ hco hmb
                rw [hb2] at hab
                simp at hab
            simp [firstMinBy, ht, hbm, ham]
          · simp [firstMinBy, ht, hbm, hab]
        · rw [if_pos (by simp [hab])]
          cases hbm : strLe (key b) (key m)
          · simp [firstMinBy, ht, hbm]
          · have ham : strLe (key a) (key m) = true :=
              strLe_trans _ _ _ hab hbm
            simp [firstMinBy, ht, hbm, hab, ham]

theorem reduceNearest_ff (a cur : NextStep) (ha : jsTruthy a.dueDate = false)
    (hc : jsTruthy cur.dueDate = false) :
    reduceNearest (some a) cur = some a := by
  simp [reduceNearest, ha, hc]

theorem reduceNearest_ft (a cur : NextStep) (ha : jsTruthy a.dueDate = false)
    (hc : jsTruthy cur.dueDate = true) :
    reduceNearest (some a) cur = some cur := by
  simp [reduceNearest, ha, hc]

theorem reduceNearest_tf (a cur : NextStep) (ha : jsTruthy a.dueDate = true)
    (hc : jsTruthy cur.dueDate = false) :
    reduceNearest (some a) cur = some a := by
  simp [reduceNearest, ha, hc]

theorem reduceNearest_tt (a cur : NextStep) (ha : jsTruthy a.dueDate = true)
    (hc : jsTruthy cur.dueDate = true) :
    reduceNearest (some a) cur =
      some (if strLe (nsKey a) (nsKey cur) then a else cur) := by
  simp only [reduceNearest, ha, hc, Bool.not_true, if_neg, ite_false,
    Bool.false_eq_true, nsKey_eq_getD]
  exact (apply_ite some _ _ _).symm

theorem foldl_reduceNearest_truthy (l : List NextStep) :
    ∀ a : NextStep, jsTruthy a.dueDate = true →
      l.foldl reduceNearest (some a) =
        some (foldMin nsKey a (l.filter (fun n => jsTruthy n.dueDate))) := by
  induction l with
  | nil => intro a _; simp [foldMin]
  | cons b t ih =>
      intro a ha
      cases hb : jsTruthy b.dueDate
      · rw [List.foldl_cons, reduceNearest_tf a b ha hb, ih a ha]
        simp [hb]
      · rw [List.foldl_cons, reduceNearest_tt a b ha hb]
        have hm : jsTruthy (if strLe (nsKey a) (nsKey b) then a else b).dueDate
            = true := by
          cases h : strLe (nsKey a) (nsKey b) <;> simp [h, ha, hb]
        rw [ih _ hm]
        simp only [List.filter_cons, hb, if_pos, ite_true]
        rfl

theorem foldl_reduceNearest_falsy (l : List NextStep) :
    ∀ a : NextStep, jsTruthy a.dueDate = false →
      l.foldl reduceNearest (some a) =
        match l.filter (fun n => jsTruthy n.dueDate) with
        | [] => some a
        | b :: s => some (foldMin nsKey b s) := by
  induction l with
  | nil => intro a _; simp
  | cons b t ih =>
      intro a ha
      cases hb : jsTruthy b.dueDate
      · rw [List.foldl_cons, reduceNearest_ff a b ha hb, ih a ha]
        simp [hb]
      · rw [List.foldl_cons, reduceNearest_ft a b ha hb,
          foldl_reduceNearest_truthy t b hb]
        simp [hb]

/-- C3: the sort-based `nearestNextStep` (table view) and the
`reduce`-based computation inside `TaskCard` (grid view) are
extensionally equal: they select the same next-step for every task. -/
theorem taskCardNearest_eq_nearestNextStep (t : Task) :
    taskCardNearest t = nearestNextStep t := by
  unfold taskCardNearest nearestNextStep
  rcases hs : t.nextSteps with _ | ⟨a, rest⟩
  · rfl
  · simp only [List.isEmpty_cons, ite_false, Bool.false_eq_true, if_neg,
      Bool.not_eq_true]
    rw [List.foldl_cons]
    show List.foldl reduceNearest (reduceNearest none a) rest = _
    rw [show reduceNearest none a = some a from rfl]
    cases ha : jsTruthy a.dueDate
    · rw [foldl_reduceNearest_falsy rest a ha]
      simp only [List.filter_cons, ha, Bool.false_eq_true, if_neg, ite_false]
      rcases hf : rest.filter (fun n => jsTruthy n.dueDate) with _ | ⟨b, s⟩
      · have hall : ∀ x ∈ rest, jsTruthy x.dueDate = false := by
          intro x hx
          by_contra hcon
          have hxin : x ∈ rest.filter (fun n => jsTruthy n.dueDate) :=
            List.mem_filter.2 ⟨hx, by simpa using hcon⟩
          rw [hf] at hxin
          exact absurd hxin (List.not_mem_nil x)
        simp [hf, hall]
      · rw [hf]
        simp only [List.isEmpty_cons, Bool.false_eq_true, if_neg, ite_false]
        rw [jsSortBy_head, ← foldMin_eq_firstMinBy]
    · rw [foldl_reduceNearest_truthy rest a ha]
      simp only [List.filter_cons, ha, if_pos, ite_true, List.isEmpty_cons,
        ite_false, Bool.false_eq_true, if_neg]
      rw [jsSortBy_head, ← foldMin_eq_firstMinBy]

theorem firstMinBy_eq_none (key : α → String) (l : List α) :
    firstMinBy key l = none ↔ l = [] := by
  cases l with
  | nil => simp [firstMinBy]
  | cons a t =>
      simp only [firstMinBy, iff_false, List.cons_ne_nil]
      rcases firstMinBy key t with _ | m <;> simp

theorem firstMinBy_filter_decomp (key : α → String) (p : α → Bool) :
    ∀ (l : List α) (m : α), firstMinBy key (l.filter p) = some m →
      p m = true ∧
      ∃ pre post, l = pre ++ m :: post ∧
        (∀ x ∈ l, p x = true → strLe (key m) (key x) = true) ∧
        (∀ x ∈ pre, p x = true → strLe (key x) (key m) = false) := by
  intro l
  induction l with
  | nil => intro m hm; simp [firstMinBy] at hm
  | cons a t ih =>
      intro m hm
      cases hpa : p a
      · rw [List.filter_cons, hpa] at hm
        simp only [Bool.false_eq_true, if_neg, ite_false] at hm
        obtain ⟨hpm, pre, post, hdec, hmin, hstrict⟩ := ih m hm
        refine ⟨hpm, a :: pre, post, by simp [hdec], ?_, ?_⟩
        · intro x hx hpx
          rcases List.mem_cons.1 hx with rfl | hx
          · rw [hpa] at hpx; exact absurd hpx (by simp)
          · exact hmin x hx hpx
        · intro x hx hpx
          rcases List.mem_cons.1 hx with rfl | hx
          · rw [hpa] at hpx; exact absurd hpx (by simp)
          · exact hstrict x hx hpx
      · rw [List.filter_cons, hpa] at hm
        simp only [if_pos, ite_true] at hm
        rcases hft : firstMinBy key (t.filter p) with _ | m0
        · have htnil : t.filter p = [] := (firstMinBy_eq_none key _).1 hft
          have hall : ∀ x ∈ t, p x = false := by
            intro x hx
            by_contra hcon
            have hxin : x ∈ t.filter p :=
              List.mem_filter.2 ⟨hx, by simpa using hcon⟩
            rw [htnil] at hxin
            exact absurd hxin (List.not_mem_nil x)
          rw [firstMinBy, hft] at hm
          obtain rfl : a = m := by simpa using hm
          refine ⟨hpa, [], t, by simp, ?_, by simp⟩
          intro x hx hpx
          rcases List.mem_cons.1 hx with rfl | hx
          · exact strLe_refl _
          · rw [hall x hx] at hpx; exact absurd hpx (by simp)
        · obtain ⟨hpm0, pre0, post0, hdec0, hmin0, hstrict0⟩ := ih m0 hft
          rw [firstMinBy, hft] at hm
          cases ham : strLe (key a) (key m0)
          · obtain rfl : m0 = m := by simpa [ham] using hm
            refine ⟨hpm0, a :: pre0, post0, by simp [hdec0], ?_, ?_⟩
            · intro x hx hpx
              rcases List.mem_cons.1 hx with rfl | hx
              · exact strLe_total _ _ ham
              · exact hmin0 x hx hpx
            · intro x hx hpx
              rcases List.mem_cons.1 hx with rfl | hx
              · exact ham
              · exact hstrict0 x hx hpx
          · obtain rfl : a = m := by simpa [ham] using hm
            refine ⟨hpa, [], t, by simp, ?_, by simp⟩
            intro x hx hpx
            rcases List.mem_cons.1 hx with rfl | hx
            · exact strLe_refl _
            · exact strLe_trans _ _ _ ham (hmin0 x hx hpx)

/-- C2: for every task with a non-empty next-step list, if no next-step
carries a (truthy) due date then `nearestNextStep` returns the first
next-step in insertion order; otherwise it returns a dated next-step
whose date is least among the dated next-steps and such that every dated
next-step strictly earlier in insertion order has a strictly later date
(ties are broken in favour of the earlier insertion position). -/
theorem nearestNextStep_spec (t : Task) (h : t.nextSteps ≠ []) :
    ((∀ n ∈ t.nextSteps, jsTruthy n.dueDate = false) →
        nearestNextStep t = t.nextSteps.head?) ∧
    ((∃ n ∈ t.nextSteps, jsTruthy n.dueDate = true) →
      ∃ m pre post,
        nearestNextStep t = some m ∧
        jsTruthy m.dueDate = true ∧
        t.nextSteps = pre ++ m :: post ∧
        (∀ x ∈ t.nextSteps, jsTruthy x.dueDate = true →
          strLe (nsKey m) (nsKey x) = true) ∧
        (∀ x ∈ pre, jsTruthy x.dueDate = true →
          strLe (nsKey x) (nsKey m) = false)) := by
  have hne : t.nextSteps.isEmpty = false := by
    simpa [List.isEmpty_iff] using h
  constructor
  · intro hall
    have hfil : t.nextSteps.filter (fun n => jsTruthy n.dueDate) = [] := by
      rw [List.filter_eq_nil_iff]
      intro x hx
      simp [hall x hx]
    unfold nearestNextStep
    rw [hne]
    simp [hfil]
  · rintro ⟨n, hn, hnt⟩
    have hfil : t.nextSteps.filter (fun n => jsTruthy n.dueDate) ≠ [] := by
      intro hnil
      have hxin : n ∈ t.nextSteps.filter (fun n => jsTruthy n.dueDate) :=
        List.mem_filter.2 ⟨hn, by simpa using hnt⟩
      rw [hnil] at hxin
      exact absurd hxin (List.not_mem_nil n)
    have hfe : (t.nextSteps.filter (fun n => jsTruthy n.dueDate)).isEmpty
        = false := by
      simpa [List.isEmpty_iff] using hfil
    have hsome : ∃ m, firstMinBy nsKey
        (t.nextSteps.filter (fun n => jsTruthy n.dueDate)) = some m := by
      rcases hfm : firstMinBy nsKey
          (t.nextSteps.filter (fun n => jsTruthy n.dueDate)) with _ | m
      · exact absurd ((firstMinBy_eq_none nsKey _).1 hfm) hfil
      · exact ⟨m, rfl⟩
    obtain ⟨m, hm⟩ := hsome
    obtain ⟨hpm, pre, post, hdec, hmin, hstrict⟩ :=
      firstMinBy_filter_decomp nsKey (fun n => jsTruthy n.dueDate)
        t.nextSteps m hm
    refine ⟨m, pre, post, ?_, hpm, hdec, hmin, hstrict⟩
    unfold nearestNextStep
    rw [hne]
    simp only [Bool.false_eq_true, if_neg, ite_false, hfe]
    rw [jsSortBy_head, hm]

/-- Concrete task for the C2 witness: the spec scenario with next-steps
A due 2024-06-10 and B due 2024-06-01. -/
def witTaskC2 : Task :=
  { id := "t1", title := "T", description := none,
    category := .Dealership, status := .Active, dueDate := none,
    createdAt := "2024-01-01T00:00:00.000Z",
    nextSteps :=
      [ { id := "n1", text := "A", dueDate := some "2024-06-10", done := none },
        { id := "n2", text := "B", dueDate := some "2024-06-01", done := none } ] }

/-- Witness for C2 at the concrete spec scenario task. -/
theorem nearestNextStep_spec_witness :
    witTaskC2.nextSteps ≠ [] ∧
    (((∀ n ∈ witTaskC2.nextSteps, jsTruthy n.dueDate = false) →
        nearestNextStep witTaskC2 = witTaskC2.nextSteps.head?) ∧
     ((∃ n ∈ witTaskC2.nextSteps, jsTruthy n.dueDate = true) →
      ∃ m pre post,
        nearestNextStep witTaskC2 = some m ∧
        jsTruthy m.dueDate = true ∧
        witTaskC2.nextSteps = pre ++ m :: post ∧
        (∀ x ∈ witTaskC2.nextSteps, jsTruthy x.dueDate = true →
          strLe (nsKey m) (nsKey x) = true) ∧
        (∀ x ∈ pre, jsTruthy x.dueDate = true →
          strLe (nsKey x) (nsKey m) = false))) :=
  ⟨by decide, nearestNextStep_spec witTaskC2 (by decide)⟩

/-- The due-date sort key of the `dueDate` sorter in `filtered`:
`(a.dueDate || "9999")`. -/
def dueKey (t : Task) : String := jsOr t.dueDate "9999"

/-- The `dueDate` branch of the `sorter` record, applied as
`[...list].sort(sorter.dueDate)`: a stable sort of a copy of the list,
comparing `(dueDate || "9999")` with `localeCompare`. -/
def sortByDueDate (l : List Task) : List Task := jsSortBy dueKey l

theorem dueKey_eq_getD_of_ne (t : Task) (h : t.dueDate.getD "" ≠ "") :
    dueKey t = t.dueDate.getD "" := by
  unfold dueKey jsOr jsTruthy
  simp [h]

theorem dueKey_of_none (t : Task) (h : t.dueDate = none) :
    dueKey t = "9999" := by
  unfold dueKey jsOr jsTruthy
  rw [h]
  rfl

/-- Task with a year-9999 due date, for the C4 counterexample. -/
def cexTaskDated : Task :=
  { id := "a", title := "A", description := none, category := .Dealership,
    status := .Active, dueDate := some "9999-12-31", createdAt := "c1",
    nextSteps := [] }

/-- Task without a due date, for the C4 counterexample. -/
def cexTaskUndated : Task :=
  { id := "b", title := "B", description := none, category := .Family,
    status := .Active, dueDate := none, createdAt := "c2",
    nextSteps := [] }

/-- C4 counterexample: sorting by due date does NOT always place tasks
with a defined due date before tasks with an undefined one. A task due
"9999-12-31" has a defined due date, yet the absent-date sentinel "9999"
compares before it, so the undated task ends up first. -/
theorem sortByDueDate_dated_first_cex :
    cexTaskDated.dueDate = some "9999-12-31" ∧
    cexTaskUndated.dueDate = none ∧
    sortByDueDate [cexTaskDated, cexTaskUndated] =
      [cexTaskUndated, cexTaskDated] := by
  refine ⟨rfl, rfl, ?_⟩
  decide

/-- C4 (amended): provided every defined due date is a non-empty string
strictly below the sentinel "9999" (true of every ISO date up to year
9998), sorting by the dueDate key yields an ordering where (1) no
undated task precedes a dated one, (2) the dated tasks appear in
ascending order of their ISO date strings, (3) tasks with equal sort
keys keep their pre-sort relative order (stability), and (4) the output
is a permutation of the (unmutated) input list. -/
theorem sortByDueDate_spec (l : List Task)
    (hiso : ∀ t ∈ l, t.dueDate.isSome = true →
      (t.dueDate.getD "" ≠ "" ∧ strLe "9999" (t.dueDate.getD "") = false)) :
    List.Pairwise
      (fun a b => b.dueDate.isSome = true → a.dueDate.isSome = true)
      (sortByDueDate l) ∧
    List.Pairwise
      (fun a b => ∀ sa sb, a.dueDate = some sa → b.dueDate = some sb →
        strLe sa sb = true)
      (sortByDueDate l) ∧
    (∀ k, (sortByDueDate l).filter (fun t => dueKey t == k) =
      l.filter (fun t => dueKey t == k)) ∧
    List.Perm (sortByDueDate l) l := by
  have hperm : List.Perm (sortByDueDate l) l := jsSortBy_perm dueKey l
  have hpw := jsSortBy_pairwise dueKey l
  refine ⟨?_, ?_, fun k => jsSortBy_filter_key dueKey l k, hperm⟩
  · refine hpw.imp_of_mem ?_
    intro a b ha hb hR hbs
    have hbl : b ∈ l := hperm.mem_iff.1 hb
    obtain ⟨hbne, hb9⟩ := hiso b hbl hbs
    rcases hda : a.dueDate with _ | sa
    · rw [dueKey_of_none a hda, dueKey_eq_getD_of_ne b hbne] at hR
      rw [hb9] at hR
      simp at hR
    · simp
  · refine hpw.imp_of_mem ?_
    intro a b ha hb hR sa sb hda hdb
    have hal : a ∈ l := hperm.mem_iff.1 ha
    have hbl : b ∈ l := hperm.mem_iff.1 hb
    obtain ⟨hane, _⟩ := hiso a hal (by simp [hda])
    obtain ⟨hbne, _⟩ := hiso b hbl (by simp [hdb])
    rw [dueKey_eq_getD_of_ne a hane, dueKey_eq_getD_of_ne b hbne,
      hda, hdb] at hR
    simpa using hR

/-- First task of the C4 witness list (due 2024-06-10). -/
def witTaskC4a : Task :=
  { id := "w1", title := "W1", description := none, category := .Business,
    status := .Active, dueDate := some "2024-06-10", createdAt := "c1",
    nextSteps := [] }

/-- Second task of the C4 witness list (due 2024-06-01). -/
def witTaskC4b : Task :=
  { id := "w2", title := "W2", description := none, category := .Family,
    status := .Pending, dueDate := some "2024-06-01", createdAt := "c2",
    nextSteps := [] }

/-- Third task of the C4 witness list (no due date). -/
def witTaskC4c : Task :=
  { id := "w3", title := "W3", description := none, category := .Personal,
    status := .Active, dueDate := none, createdAt := "c3",
    nextSteps := [] }

/-- Witness for the amended C4 at a concrete list. -/
theorem sortByDueDate_spec_witness :
    (∀ t ∈ [witTaskC4a, witTaskC4b, witTaskC4c], t.dueDate.isSome = true →
      (t.dueDate.getD "" ≠ "" ∧ strLe "9999" (t.dueDate.getD "") = false)) ∧
    (List.Pairwise
      (fun a b => b.dueDate.isSome = true → a.dueDate.isSome = true)
      (sortByDueDate [witTaskC4a, witTaskC4b, witTaskC4c]) ∧
    List.Pairwise
      (fun a b => ∀ sa sb, a.dueDate = some sa → b.dueDate = some sb →
        strLe sa sb = true)
      (sortByDueDate [witTaskC4a, witTaskC4b, witTaskC4c]) ∧
    (∀ k, (sortByDueDate [witTaskC4a, witTaskC4b, witTaskC4c]).filter
        (fun t => dueKey t == k) =
      [witTaskC4a, witTaskC4b, witTaskC4c].filter (fun t => dueKey t == k)) ∧
    List.Perm (sortByDueDate [witTaskC4a, witTaskC4b, witTaskC4c])
      [witTaskC4a, witTaskC4b, witTaskC4c]) :=
  ⟨by decide, sortByDueDate_spec [witTaskC4a, witTaskC4b, witTaskC4c] (by decide)⟩

/-- `upsertTask(task)` from the source: if some existing task has the
same id, replace every matching entry via `map`; otherwise prepend the
task. -/
def upsertTask (task : Task) (prev : List Task) : List Task :=
  if prev.any (fun p => p.id == task.id) then
    prev.map (fun p => if p.id == task.id then task else p)
  else task :: prev

/-- The `onToggleComplete` copy in `TaskCard`:
`{ ...t, status: t.status === "Completed" ? "Active" : "Completed" }`. -/
def toggleComplete (t : Task) : Task :=
  { t with status := if t.status = Status.Completed then .Active else .Completed }

theorem map_replace_of_not_mem (task : Task) (l : List Task)
    (h : ∀ q ∈ l, q.id ≠ task.id) :
    l.map (fun p => if p.id == task.id then task else p) = l := by
  induction l with
  | nil => rfl
  | cons p rest ih =>
      have hp : p.id ≠ task.id := h p (List.mem_cons_self p rest)
      rw [List.map_cons, if_neg (by simp [hp]), ih]
      intro q hq
      exact h q (List.mem_cons_of_mem p hq)

theorem map_replace_eq_set (task : Task) :
    ∀ (prev : List Task) (i : Nat) (hi : i < prev.length),
      (prev.get ⟨i, hi⟩).id = task.id →
      (prev.map Task.id).Nodup →
      prev.map (fun p => if p.id == task.id then task else p) =
        prev.set i task := by
  intro prev
  induction prev with
  | nil => intro i hi; exact absurd hi (by simp)
  | cons p rest ih =>
      intro i hi hid hnd
      rw [List.map_cons] at hnd
      obtain ⟨hnotin, hnd2⟩ := List.nodup_cons.1 hnd
      cases i with
      | zero =>
          have hp : p.id = task.id := hid
          have hrest : ∀ q ∈ rest, q.id ≠ task.id := by
            intro q hq hqid
            exact hnotin (by
              rw [hp, ← hqid]
              exact List.mem_map_of_mem Task.id hq)
          rw [List.map_cons, if_pos (by simp [hp]),
            map_replace_of_not_mem task rest hrest]
          rfl
      | succ j =>
          have hj : j < rest.length := by simpa using hi
          have hjid : (rest.get ⟨j, hj⟩).id = task.id := hid
          have hp : p.id ≠ task.id := by
            intro hp
            exact hnotin (by
              rw [hp, ← hjid]
              exact List.mem_map_of_mem Task.id (rest.get_mem j hj))
          rw [List.map_cons, if_neg (by simp [hp])]
          show p :: _ = (p :: rest).set (j + 1) task
          rw [List.set_cons_succ, ih j hj hjid hnd2]

theorem upsert_found (task : Task) (prev : List Task) (i : Nat)
    (hi : i < prev.length) (hid : (prev.get ⟨i, hi⟩).id = task.id)
    (hnd : (prev.map Task.id).Nodup) :
    upsertTask task prev = prev.set i task := by
  have hmem : prev.get ⟨i, hi⟩ ∈ prev := prev.get_mem i hi
  have hany : prev.any (fun p => p.id == task.id) = true :=
    List.any_eq_true.2 ⟨prev.get ⟨i, hi⟩, hmem, by simpa using hid⟩
  unfold upsertTask
  rw [hany]
  simp only [if_pos, ite_true]
  exact map_replace_eq_set task prev i hi hid hnd

/-- C7: provided the store satisfies its documented id-uniqueness
invariant, `upsertTask` replaces the (unique) task carrying the new
task's id in place — the result is exactly `prev.set i task`, preserving
position, length and every other entry — and prepends the task to the
front when no entry carries its id. -/
theorem upsertTask_spec (task : Task) (prev : List Task)
    (hnd : (prev.map Task.id).Nodup) :
    ((∀ p ∈ prev, p.id ≠ task.id) → upsertTask task prev = task :: prev) ∧
    (∀ i, ∀ hi : i < prev.length, (prev.get ⟨i, hi⟩).id = task.id →
      upsertTask task prev = prev.set i task) := by
  constructor
  · intro hnone
    have hany : prev.any (fun p => p.id == task.id) = false := by
      rw [List.any_eq_false]
      intro p hp
      simp [hnone p hp]
    unfold upsertTask
    rw [hany]
    rfl
  · intro i hi hid
    exact upsert_found task prev i hi hid hnd

/-- First store entry for the C7 witness. -/
def witTaskC7a : Task :=
  { id := "x", title := "X", description := none, category := .Dealership,
    status := .Active, dueDate := none, createdAt := "c1", nextSteps := [] }

/-- Second store entry for the C7 witness. -/
def witTaskC7b : Task :=
  { id := "y", title := "Y", description := none, category := .Family,
    status := .Pending, dueDate := some "2024-06-01", createdAt := "c2",
    nextSteps := [] }

/-- Replacement task (same id as the second entry) for the C7 witness. -/
def witTaskC7new : Task :=
  { id := "y", title := "Y2", description := some "edited",
    category := .Family, status := .Completed, dueDate := some "2024-07-01",
    createdAt := "c2", nextSteps := [] }

/-- Witness for C7 at a concrete two-task store. -/
theorem upsertTask_spec_witness :
    (([witTaskC7a, witTaskC7b].map Task.id).Nodup) ∧
    (((∀ p ∈ [witTaskC7a, witTaskC7b], p.id ≠ witTaskC7new.id) →
        upsertTask witTaskC7new [witTaskC7a, witTaskC7b] =
          witTaskC7new :: [witTaskC7a, witTaskC7b]) ∧
     (∀ i, ∀ hi : i < ([witTaskC7a, witTaskC7b] : List Task).length,
        (([witTaskC7a, witTaskC7b] : List Task).get ⟨i, hi⟩).id = witTaskC7new.id →
        upsertTask witTaskC7new [witTaskC7a, witTaskC7b] =
          ([witTaskC7a, witTaskC7b] : List Task).set i witTaskC7new)) :=
  ⟨by decide, upsertTask_spec witTaskC7new [witTaskC7a, witTaskC7b] (by decide)⟩

/-- C6: provided the store satisfies its id-uniqueness invariant and the
task `t` is in the store, the toggle-complete action replaces exactly
`t`'s entry by `toggleComplete t`; the new status is Completed when the
old one was Active or Pending and Active when it was Completed (so a
double toggle from Active returns to Active, never Pending), and id,
title, description, category, dueDate, createdAt and nextSteps are
unchanged; entries at every other position are untouched (`List.set`
leaves them as they were). -/
theorem toggleComplete_spec (t : Task) (prev : List Task)
    (hmem : t ∈ prev) (hnd : (prev.map Task.id).Nodup) :
    (∃ i, ∃ hi : i < prev.length, prev.get ⟨i, hi⟩ = t ∧
        upsertTask (toggleComplete t) prev = prev.set i (toggleComplete t)) ∧
    ((t.status = .Active ∨ t.status = .Pending) →
        (toggleComplete t).status = .Completed) ∧
    (t.status = .Completed → (toggleComplete t).status = .Active) ∧
    (t.status = .Active →
        (toggleComplete (toggleComplete t)).status = .Active) ∧
    (toggleComplete t).id = t.id ∧
    (toggleComplete t).title = t.title ∧
    (toggleComplete t).description = t.description ∧
    (toggleComplete t).category = t.category ∧
    (toggleComplete t).dueDate = t.dueDate ∧
    (toggleComplete t).createdAt = t.createdAt ∧
    (toggleComplete t).nextSteps = t.nextSteps := by
  refine ⟨?_, ?_, ?_, ?_, rfl, rfl, rfl, rfl, rfl, rfl, rfl⟩
  · obtain ⟨⟨i, hi⟩, hget⟩ := List.mem_iff_get.1 hmem
    refine ⟨i, hi, hget, ?_⟩
    refine upsert_found (toggleComplete t) prev i hi ?_ hnd
    rw [hget]
    rfl
  · rintro (h | h) <;> simp [toggleComplete, h]
  · intro h; simp [toggleComplete, h]
  · intro h; simp [toggleComplete, h]

/-- Witness for C6: toggling the Active task in a concrete two-task
store. -/
theorem toggleComplete_spec_witness :
    (witTaskC7a ∈ [witTaskC7a, witTaskC7b] ∧
      ([witTaskC7a, witTaskC7b].map Task.id).Nodup) ∧
    ((∃ i, ∃ hi : i < ([witTaskC7a, witTaskC7b] : List Task).length,
        ([witTaskC7a, witTaskC7b] : List Task).get ⟨i, hi⟩ = witTaskC7a ∧
        upsertTask (toggleComplete witTaskC7a) [witTaskC7a, witTaskC7b] =
          ([witTaskC7a, witTaskC7b] : List Task).set i
            (toggleComplete witTaskC7a)) ∧
    ((witTaskC7a.status = .Active ∨ witTaskC7a.status = .Pending) →
        (toggleComplete witTaskC7a).status = .Completed) ∧
    (witTaskC7a.status = .Completed →
        (toggleComplete witTaskC7a).status = .Active) ∧
    (witTaskC7a.status = .Active →
        (toggleComplete (toggleComplete witTaskC7a)).status = .Active) ∧
    (toggleComplete witTaskC7a).id = witTaskC7a.id ∧
    (toggleComplete witTaskC7a).title = witTaskC7a.title ∧
    (toggleComplete witTaskC7a).description = witTaskC7a.description ∧
    (toggleComplete witTaskC7a).category = witTaskC7a.category ∧
    (toggleComplete witTaskC7a).dueDate = witTaskC7a.dueDate ∧
    (toggleComplete witTaskC7a).createdAt = witTaskC7a.createdAt ∧
    (toggleComplete witTaskC7a).nextSteps = witTaskC7a.nextSteps) :=
  ⟨⟨by decide, by decide⟩,
    toggleComplete_spec witTaskC7a [witTaskC7a, witTaskC7b]
      (by decide) (by decide)⟩

/-- `byCategory` from the source: a record with one bucket per category,
built by pushing each task of the filtered list, in order, onto the
bucket of its category (`filtered.forEach((t) => map[t.category].push(t))`);
represented as the map from category to bucket. -/
def byCategory (filtered : List Task) : Category → List Task :=
  filtered.foldl
    (fun m t => fun c => if t.category == c then m c ++ [t] else m c)
    (fun _ => [])

theorem byCategory_loop (l : List Task) :
    ∀ (m : Category → List Task) (c : Category),
      (l.foldl
        (fun m t => fun c => if t.category == c then m c ++ [t] else m c)
        m) c = m c ++ l.filter (fun t => t.category == c) := by
  induction l with
  | nil => intro m c; simp
  | cons t rest ih =>
      intro m c
      rw [List.foldl_cons, ih]
      by_cases h : t.category = c
      · simp [List.filter_cons, h]
      · simp [List.filter_cons, h]

theorem byCategory_eq_filter (l : List Task) (c : Category) :
    byCategory l c = l.filter (fun t => t.category == c) := by
  unfold byCategory
  rw [byCategory_loop]
  rfl

theorem joinFilterPerm (l : List Task) :
    List.Perm
      ((CATEGORIES.map (fun c => l.filter (fun t => t.category == c))).flatten)
      l := by
  induction l with
  | nil => simp [CATEGORIES]
  | cons t rest ih =>
      rcases hc : t.category
      all_goals (
        simp only [CATEGORIES, List.map_cons, List.map_nil, List.filter_cons,
          hc, List.flatten_cons, List.flatten_nil, List.append_nil] at ih ⊢
        simp only [beq_iff_eq, reduceCtorEq, ite_true, ite_false, if_pos,
          if_neg, not_false_iff])
      · exact List.Perm.cons t ih
      · refine List.Perm.trans List.perm_middle ?_
        exact List.Perm.cons t ih
      · rw [← List.append_assoc]
        refine List.Perm.trans List.perm_middle ?_
        refine List.Perm.cons t ?_
        rw [List.append_assoc]
        exact ih
      · rw [← List.append_assoc, ← List.append_assoc]
        refine List.Perm.trans List.perm_middle ?_
        refine List.Perm.cons t ?_
        rw [List.append_assoc, List.append_assoc]
        exact ih
      · rw [← List.append_assoc, ← List.append_assoc, ← List.append_assoc]
        refine List.Perm.trans List.perm_middle ?_
        refine List.Perm.cons t ?_
        rw [List.append_assoc, List.append_assoc, List.append_assoc]
        exact ih

/-- C8: grouping a (filtered, sorted) list by category yields five
buckets that contain only tasks of their own category (hence are
pairwise disjoint), jointly contain every task, preserve the input
order inside each bucket (each bucket is a sublist of the input), and
whose concatenation in category-declaration order is a permutation of
the input list. -/
theorem byCategory_spec (l : List Task) :
    (∀ c, ∀ x ∈ byCategory l c, x.category = c) ∧
    (∀ c c2, c ≠ c2 → ∀ x, x ∈ byCategory l c → x ∉ byCategory l c2) ∧
    (∀ x ∈ l, x ∈ byCategory l x.category) ∧
    (∀ c, (byCategory l c).Sublist l) ∧
    List.Perm ((CATEGORIES.map (byCategory l)).flatten) l := by
  have hpure : ∀ c, ∀ x ∈ byCategory l c, x.category = c := by
    intro c x hx
    rw [byCategory_eq_filter] at hx
    simpa using (List.mem_filter.1 hx).2
  refine ⟨hpure, ?_, ?_, ?_, ?_⟩
  · intro c c2 hne x hx hx2
    exact hne ((hpure c x hx) ▸ (hpure c2 x hx2).symm ▸ rfl)
  · intro x hx
    rw [byCategory_eq_filter]
    exact List.mem_filter.2 ⟨hx, by simp⟩
  · intro c
    rw [byCategory_eq_filter]
    exact List.filter_sublist l
  · have hmap : CATEGORIES.map (byCategory l) =
        CATEGORIES.map (fun c => l.filter (fun t => t.category == c)) := by
      simp [CATEGORIES, byCategory_eq_filter]
    rw [hmap]
    exact joinFilterPerm l

/-- `metrics.total` from the source: the length of the full task list. -/
def metricsTotal (tasks : List Task) : Nat := tasks.length

/-- `metrics.counts` from the source: per category, the number of tasks
of that category (`tasks.filter((t) => t.category === c).length`). -/
def metricsCounts (tasks : List Task) (c : Category) : Nat :=
  (tasks.filter (fun t => t.category == c)).length

/-- C10: the total metric equals the length of the task list, and it
also equals the sum of the five per-category counts (in the enum model
every task's category is one of the five fixed categories), so the
per-category counts always add up to the displayed total. -/
theorem metrics_spec (tasks : List Task) :
    metricsTotal tasks = tasks.length ∧
    metricsTotal tasks = (CATEGORIES.map (metricsCounts tasks)).sum := by
  refine ⟨rfl, ?_⟩
  have hperm := joinFilterPerm tasks
  have hlen := hperm.length_eq
  rw [List.length_flatten, List.map_map] at hlen
  show tasks.length = _
  rw [← hlen]
  rfl

/-- A calendar date as JavaScript `Date` components: `getFullYear`,
`getMonth` (0-11) and `getDate` (1-31). -/
structure JsDate where
  year : Int
  month : Nat
  day : Nat
deriving DecidableEq, Repr

/-- `startOfMonth(date)` from the source:
`new Date(date.getFullYear(), date.getMonth(), 1)`. -/
def startOfMonth (d : JsDate) : JsDate :=
  { year := d.year, month := d.month, day := 1 }

/-- Day number (days since 1970-01-01) of a civil date, JS month
convention (0-11): the standard days-from-civil algorithm, modelling how
the JS `Date` maps calendar components to its day line. -/
def daysFromCivil (year : Int) (month : Nat) (day : Nat) : Int :=
  let m : Int := month + 1
  let y : Int := if m ≤ 2 then year - 1 else year
  let era : Int := (if 0 ≤ y then y else y - 399) / 400
  let yoe : Int := y - era * 400
  let doy : Int := (153 * (if 2 < m then m - 3 else m + 9) + 2) / 5 + day - 1
  let doe : Int := yoe * 365 + yoe / 4 - yoe / 100 + doy
  era * 146097 + doe - 719468

/-- The day number a `JsDate` denotes. -/
def JsDate.dayNumber (d : JsDate) : Int :=
  daysFromCivil d.year d.month d.day

/-- `Date.prototype.getDay` on the day line: day 0 (1970-01-01) was a
Thursday, so the weekday (0 = Sunday) of day `n` is `(n + 4) mod 7`. -/
def getDay (n : Int) : Int := (n + 4) % 7

/-- `startOfWeek(date, weekStartsOn)` from the source:
`addDays(d, -((d.getDay() + 7 - weekStartsOn) % 7))`, on day numbers. -/
def startOfWeekNum (n : Int) (weekStartsOn : Int) : Int :=
  n - ((getDay n + 7 - weekStartsOn) % 7)

/-- `calendarMatrix` from the source: 42 consecutive days starting from
`startOfWeek(startOfMonth(calendarCursor), 0)`. -/
def calendarMatrix (cursor : JsDate) : List Int :=
  (List.range 42).map
    (fun i => startOfWeekNum ((startOfMonth cursor).dayNumber) 0 + Int.ofNat i)

/-- `tasksOn(date)` from the source: the tasks whose own `dueDate`
equals the day's ISO string or one of whose next-steps' `dueDate`
equals it. -/
def tasksOn (tasks : List Task) (iso : String) : List Task :=
  tasks.filter
    (fun t => t.dueDate == some iso ||
      t.nextSteps.any (fun n => n.dueDate == some iso))

/-- C5: in month mode the calendar grid is exactly 42 consecutive days
(`head` plus `+1` chaining) beginning at the Sunday (`getDay = 0`) on or
before the first day of the cursor's month (at most 6 days before it);
and for every day and every task list, `tasksOn` holds exactly the tasks
whose own due date equals that day's ISO date or that have some
next-step due on it, in store order. -/
theorem calendarMatrix_spec (cursor : JsDate) (tasks : List Task)
    (iso : String) :
    (calendarMatrix cursor).length = 42 ∧
    (calendarMatrix cursor).head? =
      some (startOfWeekNum ((startOfMonth cursor).dayNumber) 0) ∧
    List.Chain' (fun a b => b = a + 1) (calendarMatrix cursor) ∧
    getDay (startOfWeekNum ((startOfMonth cursor).dayNumber) 0) = 0 ∧
    startOfWeekNum ((startOfMonth cursor).dayNumber) 0 ≤
      (startOfMonth cursor).dayNumber ∧
    (startOfMonth cursor).dayNumber -
      startOfWeekNum ((startOfMonth cursor).dayNumber) 0 < 7 ∧
    (∀ x, x ∈ tasksOn tasks iso ↔
      x ∈ tasks ∧ (x.dueDate = some iso ∨
        ∃ n ∈ x.nextSteps, n.dueDate = some iso)) := by
  refine ⟨by simp [calendarMatrix], ?_, ?_, ?_, ?_, ?_, ?_⟩
  · rw [calendarMatrix, List.head?_map]
    rw [show (List.range 42).head? = some 0 from by decide]
    simp
  · rw [calendarMatrix, List.chain'_map]
    rw [show (42 : Nat) = 41 + 1 from rfl, List.chain'_range_succ]
    intro m hm
    simp only [Int.ofNat_eq_coe]
    push_cast
    ring
  · simp only [startOfWeekNum, getDay]
    omega
  · simp only [startOfWeekNum, getDay]
    omega
  · simp only [startOfWeekNum, getDay]
    omega
  · intro x
    simp only [tasksOn, List.mem_filter, Bool.or_eq_true, beq_iff_eq,
      List.any_eq_true]

/-- JSON values, as far as the task schema needs them (a serialized task
contains only strings, booleans, arrays and objects; an object is its
ordered field list). `JSON.stringify` / `JSON.parse` (platform
primitives, not repository code) are mutually inverse between such trees
and their textual form, so export-then-import is modelled at the tree
level. -/
inductive Js where
  | null : Js
  | bool : Bool → Js
  | str : String → Js
  | arr : List Js → Js
  | obj : List (String × Js) → Js

/-- The name of a category, as serialized. -/
def categoryName : Category → String
  | .Dealership => "Dealership"
  | .Family => "Family"
  | .Business => "Business"
  | .Spiritual => "Spiritual"
  | .Personal => "Personal"

/-- The name of a status, as serialized. -/
def statusName : Status → String
  | .Active => "Active"
  | .Pending => "Pending"
  | .Completed => "Completed"

/-- Reading a category back from its serialized name. -/
def categoryOfName (s : String) : Option Category :=
  if s == "Dealership" then some .Dealership
  else if s == "Family" then some .Family
  else if s == "Business" then some .Business
  else if s == "Spiritual" then some .Spiritual
  else if s == "Personal" then some .Personal
  else none

/-- Reading a status back from its serialized name. -/
def statusOfName (s : String) : Option Status :=
  if s == "Active" then some .Active
  else if s == "Pending" then some .Pending
  else if s == "Completed" then some .Completed
  else none

/-- `JSON.stringify` of a next-step: its fields in order, with
`undefined`-valued optional fields omitted, exactly as `stringify`
drops them. -/
def encodeNextStep (n : NextStep) : Js :=
  Js.obj (("id", Js.str n.id) :: ("text", Js.str n.text) ::
    ((match n.dueDate with
      | some d => [("dueDate", Js.str d)]
      | none => []) ++
     (match n.done with
      | some b => [("done", Js.bool b)]
      | none => [])))

/-- `JSON.stringify` of a task: its fields in order, with
`undefined`-valued optional fields omitted. -/
def encodeTask (t : Task) : Js :=
  Js.obj (("id", Js.str t.id) :: ("title", Js.str t.title) ::
    ((match t.description with
      | some d => [("description", Js.str d)]
      | none => []) ++
     (("category", Js.str (categoryName t.category)) ::
      ("status", Js.str (statusName t.status)) ::
      ((match t.dueDate with
        | some d => [("dueDate", Js.str d)]
        | none => []) ++
       [("createdAt", Js.str t.createdAt),
        ("nextSteps", Js.arr (t.nextSteps.map encodeNextStep))]))))

/-- The export (`JSON.stringify(tasks, null, 2)`): the task array as a
JSON tree. -/
def exportTasks (tasks : List Task) : Js :=
  Js.arr (tasks.map encodeTask)

/-- Field lookup in a parsed JSON object. -/
def getField (fields : List (String × Js)) (k : String) : Option Js :=
  match fields with
  | [] => none
  | (k2, v) :: rest => if k2 == k then some v else getField rest k

/-- A field read as a string. -/
def asStr : Option Js → Option String
  | some (Js.str s) => some s
  | _ => none

/-- Modelled from the spec: deep equality between a parsed JSON object
and a `NextStep` is expressed by reading the object back through the
next-step schema of §3/§6; `decodeNextStep j = some n` says the parsed
object `j` is deep-equal to the next-step `n`. -/
def decodeNextStep : Js → Option NextStep
  | Js.obj fs =>
      match asStr (getField fs "id"), asStr (getField fs "text") with
      | some i, some tx =>
          some { id := i, text := tx,
                 dueDate :=
                   match getField fs "dueDate" with
                   | some (Js.str d) => some d
                   | _ => none,
                 done :=
                   match getField fs "done" with
                   | some (Js.bool b) => some b
                   | _ => none }
      | _, _ => none
  | _ => none

/-- Decode every element of a parsed array, failing if any element
fails. -/
def decodeList (f : Js → Option α) : List Js → Option (List α)
  | [] => some []
  | j :: rest =>
      match f j, decodeList f rest with
      | some a, some l => some (a :: l)
      | _, _ => none

/-- Modelled from the spec: deep equality between a parsed JSON object
and a `Task`, by reading the object back through the task schema of
§3/§6. -/
def decodeTask : Js → Option Task
  | Js.obj fs =>
      match asStr (getField fs "id"), asStr (getField fs "title"),
          (asStr (getField fs "category")).bind categoryOfName,
          (asStr (getField fs "status")).bind statusOfName,
          asStr (getField fs "createdAt"),
          (match getField fs "nextSteps" with
           | some (Js.arr xs) => decodeList decodeNextStep xs
           | _ => none) with
      | some i, some ttl, some c, some st, some ca, some ns =>
          some { id := i, title := ttl,
                 description :=
                   match getField fs "description" with
                   | some (Js.str d) => some d
                   | _ => none,
                 category := c, status := st,
                 dueDate :=
                   match getField fs "dueDate" with
                   | some (Js.str d) => some d
                   | _ => none,
                 createdAt := ca, nextSteps := ns }
      | _, _, _, _, _, _ => none
  | _ => none

/-- The import handler: `JSON.parse` must yield an array
(`Array.isArray(data)`), which replaces the whole task list; reading it
back through the schema states deep equality with a task list. -/
def importTasks : Js → Option (List Task)
  | Js.arr xs => decodeList decodeTask xs
  | _ => none

theorem categoryOfName_name (c : Category) :
    categoryOfName (categoryName c) = some c := by
  cases c <;> rfl

theorem statusOfName_name (st : Status) :
    statusOfName (statusName st) = some st := by
  cases st <;> rfl

theorem decodeNextStep_encode (n : NextStep) :
    decodeNextStep (encodeNextStep n) = some n := by
  rcases n with ⟨i, tx, d, dn⟩
  rcases d with _ | d <;> rcases dn with _ | b <;> rfl

theorem decodeList_encode (ns : List NextStep) :
    decodeList decodeNextStep (ns.map encodeNextStep) = some ns := by
  induction ns with
  | nil => rfl
  | cons n rest ih =>
      rw [List.map_cons]
      simp only [decodeList]
      rw [decodeNextStep_encode, ih]

theorem decodeTask_encode (t : Task) :
    decodeTask (encodeTask t) = some t := by
  rcases t with ⟨i, ttl, desc, c, st, due, ca, ns⟩
  rcases desc with _ | d <;> rcases due with _ | d2 <;>
    simp [encodeTask, decodeTask, getField, asStr, categoryOfName_name,
      statusOfName_name, decodeList_encode]

theorem decodeListTask_encode (tasks : List Task) :
    decodeList decodeTask (tasks.map encodeTask) = some tasks := by
  induction tasks with
  | nil => rfl
  | cons t rest ih =>
      rw [List.map_cons]
      simp only [decodeList]
      rw [decodeTask_encode, ih]

/-- C9: exporting the task list to JSON and importing the parsed result
(which is an array, so the `Array.isArray` gate passes and the list is
replaced wholesale) yields a task list deep-equal to the original. -/
theorem export_import_roundtrip (tasks : List Task) :
    importTasks (exportTasks tasks) = some tasks :=
  decodeListTask_encode tasks

end DailyCRM
